import Mathlib

/-!
A shallow embedding of the `InMemoryRateLimitGuard` class: an in-memory
sliding-window rate limiter.  Timestamps are integers (milliseconds), the
`Map<string, number[]>` of per-key timestamp logs is an insertion-ordered
association list, and the decision of one guard invocation is `Admitted`
(the method returns `true`) or `Rejected retryAfterSeconds` (the method sets
the `Retry-After` header and throws a 429 `HttpException`).
-/

namespace InMemoryRateLimit

/-- JS `Math.ceil(a / b)` on integer inputs with a positive divisor: ceiling
division.  `Int` division is Euclidean, hence floor division for `0 < b`, so
negating twice rounds up. -/
def ceilDiv (a b : Int) : Int := -(-a / b)

/-- `InMemoryRateLimitGuardOptions = { windowMs: number; maxRequests: number }`. -/
structure InMemoryRateLimitGuardOptions where
  windowMs : Int
  maxRequests : Int
deriving DecidableEq, Repr

/-- The `requestTimestamps : Map<string, number[]>` field: an insertion-ordered
association list from client key to that key's log of admitted timestamps. -/
abbrev RLState := List (String × List Int)

/-- `this.requestTimestamps.get(ip) ?? []`. -/
def getLog (key : String) (st : RLState) : List Int := (st.lookup key).getD []

/-- JS `Map.prototype.set`: overwrite the value at the first entry with a
matching key, keeping its position; append a fresh entry otherwise. -/
def setEntry (key : String) (v : List Int) : RLState → RLState
  | [] => [(key, v)]
  | (k, w) :: rest => if k = key then (k, v) :: rest else (k, w) :: setEntry key v rest

/-- `timestamps.filter((timestamp) => timestamp > windowStart)` where
`windowStart = now - windowMs`: the timestamps still inside the window. -/
def validOf (windowMs now : Int) (timestamps : List Int) : List Int :=
  let windowStart := now - windowMs
  timestamps.filter (fun timestamp => windowStart < timestamp)

/-- `cleanupExpiredEntries(now)` (source lines 63-75): prune every key's log to
the current window and delete the keys whose pruned log is empty. -/
def cleanupExpiredEntries (windowMs now : Int) (st : RLState) : RLState :=
  st.filterMap (fun e =>
    let validTimestamps := validOf windowMs now e.2
    if validTimestamps.isEmpty then none else some (e.1, validTimestamps))

/-- The observable outcome of one guard invocation: `Admitted` models the
method returning `true`; `Rejected r` models the thrown 429 `HttpException`
together with the value `r` written into the `Retry-After` header. -/
inductive Decision where
  | Admitted : Decision
  | Rejected (retryAfterSeconds : Int) : Decision
deriving DecidableEq, Repr

/-- Whether a decision admitted the request. -/
def Decision.isAdmitted : Decision → Bool
  | .Admitted => true
  | .Rejected _ => false

/-- The core of `canActivate` (source lines 24-43) with the extracted client
key and the clock reading `Date.now()` as parameters.  If at least
`maxRequests` of the key's logged timestamps are still inside the window the
call is rejected with a ceiling-rounded retry hint computed from the oldest
valid timestamp, and the map is untouched: the exception is thrown before any
write, so `now` is not recorded and `cleanupExpiredEntries` does not run.
Otherwise `now` is appended to the pruned log, the log is stored back, and the
global cleanup pass runs.  (`headD 0` renders `validTimestamps[0]`; its
default is unreachable when `maxRequests` is positive.) -/
def checkAndRecord (o : InMemoryRateLimitGuardOptions) (st : RLState)
    (key : String) (now : Int) : Decision × RLState :=
  let timestamps := getLog key st
  let validTimestamps := validOf o.windowMs now timestamps
  if o.maxRequests ≤ (validTimestamps.length : Int) then
    let oldestTimestamp := validTimestamps.headD 0
    let retryAfter := ceilDiv (oldestTimestamp + o.windowMs - now) 1000
    (Decision.Rejected retryAfter, st)
  else
    let newLog := validTimestamps ++ [now]
    (Decision.Admitted, cleanupExpiredEntries o.windowMs now (setEntry key newLog st))

/-- Run a sequence of guard invocations `(key, now)` against a starting state,
collecting the decisions in order together with the final state. -/
def runCalls (o : InMemoryRateLimitGuardOptions) :
    RLState → List (String × Int) → List Decision × RLState
  | st, [] => ([], st)
  | st, c :: rest =>
    let s := checkAndRecord o st c.1 c.2
    let r := runCalls o s.2 rest
    (s.1 :: r.1, r.2)

/-- The guard object produced by a successful construction: the validated
options next to the `requestTimestamps` map. -/
structure InMemoryRateLimitGuard where
  options : InMemoryRateLimitGuardOptions
  requestTimestamps : RLState
deriving DecidableEq, Repr

/-- The constructor (source lines 12-17): throw on non-positive configuration,
otherwise store the options alongside an initially empty map. -/
def mkInMemoryRateLimitGuard (options : InMemoryRateLimitGuardOptions) :
    Except String InMemoryRateLimitGuard :=
  if options.windowMs ≤ 0 ∨ options.maxRequests ≤ 0 then
    Except.error "windowMs and maxRequests must be positive"
  else
    Except.ok { options := options, requestTimestamps := [] }

/-- The value found at `request.headers?.['x-forwarded-for']`: absent (or
`undefined`), a single string, or an array of strings. -/
inductive HeaderValue where
  | missing : HeaderValue
  | str (s : String) : HeaderValue
  | arr (l : List String) : HeaderValue
deriving DecidableEq, Repr

/-- JS truthiness of the header value: `undefined` and the empty string are
falsy; an array is an object and is truthy even when empty. -/
def HeaderValue.truthy : HeaderValue → Bool
  | .missing => false
  | .str s => s ≠ ""
  | .arr _ => true

/-- The request shape consumed by `extractIp`: an optional `ip` field and the
`x-forwarded-for` header value. -/
structure RequestInput where
  ip : Option String
  xForwardedFor : HeaderValue
deriving DecidableEq, Repr

/-- `extractIp` (source lines 46-61).  `Except.error` models the `TypeError`
raised when the header is a truthy array whose first element is `undefined`
(an empty array): `xForwardedFor[0].split` then dereferences `undefined`.
`String.splitOn ","` renders `split(',')` and `String.trim` renders `trim()`;
a falsy `request.ip` (absent or empty) falls through to `"unknown"`. -/
def extractIp (request : RequestInput) : Except String String :=
  if request.xForwardedFor.truthy then
    match request.xForwardedFor with
    | .arr [] => Except.error "TypeError: Cannot read properties of undefined"
    | .arr (ips :: _) => Except.ok (((ips.splitOn ",").headD "").trim)
    | .str ips => Except.ok (((ips.splitOn ",").headD "").trim)
    | .missing => Except.ok "unknown"
  else
    match request.ip with
    | some ip => if ip ≠ "" then Except.ok ip else Except.ok "unknown"
    | none => Except.ok "unknown"

/-- `canActivate` end to end with the clock as a parameter: derive the client
key via `extractIp` (which may fault) and then decide.  `Except.error` is any
fault other than the modelled 429 rejection, which is a normal `ok` outcome. -/
def canActivateModel (o : InMemoryRateLimitGuardOptions) (st : RLState)
    (request : RequestInput) (now : Int) : Except String (Decision × RLState) :=
  match extractIp request with
  | Except.error e => Except.error e
  | Except.ok ip => Except.ok (checkAndRecord o st ip now)

/-- Number of admitted decisions in a list. -/
def countAdmitted (ds : List Decision) : Nat := ds.countP Decision.isAdmitted

/-- The calls' clock values are non-decreasing and start no earlier than `t`. -/
def timeOrdered : Int → List (String × Int) → Prop
  | _, [] => True
  | t, c :: rest => t ≤ c.2 ∧ timeOrdered c.2 rest

instance instDecTimeOrdered : (t : Int) → (calls : List (String × Int)) →
    Decidable (timeOrdered t calls)
  | _, [] => Decidable.isTrue trivial
  | t, c :: rest =>
    have : Decidable (timeOrdered c.2 rest) := instDecTimeOrdered c.2 rest
    inferInstanceAs (Decidable (_ ∧ _))

/-- The clock value of the last call, or `t` when there are none. -/
def lastNow (t : Int) (calls : List (String × Int)) : Int :=
  (calls.map Prod.snd).getLastD t

/-- The decisions observed for key `k`: the decision list projected onto the
calls whose key is `k`. -/
def projFor (k : String) : List (String × Int) → List Decision → List Decision
  | _, [] => []
  | [], _ :: _ => []
  | c :: cs, d :: ds => if c.1 = k then d :: projFor k cs ds else projFor k cs ds

/-- The clock values at which calls for key `k` were admitted, reading the
calls next to the parallel list of their decisions. -/
def admittedNows (k : String) : List (String × Int) → List Decision → List Int
  | _, [] => []
  | [], _ :: _ => []
  | c :: cs, d :: ds =>
    if c.1 = k ∧ d.isAdmitted = true then c.2 :: admittedNows k cs ds
    else admittedNows k cs ds

/-- The keys of the state, in insertion order. -/
def keysOf (st : RLState) : List String := st.map Prod.fst

/-- Number of timestamps at least `base` in a log. -/
def countFrom (base : Int) (l : List Int) : Nat :=
  l.countP (fun x => decide (base ≤ x))

/-- Invariant of every state reachable by calls whose clocks are at most `t`:
duplicate-free keys, each log sorted, and each logged timestamp at most `t`. -/
structure StateInv (t : Int) (st : RLState) : Prop where
  nodup : (keysOf st).Nodup
  sorted : ∀ k, List.Sorted (· ≤ ·) (getLog k st)
  ubound : ∀ k, ∀ x ∈ getLog k st, x ≤ t

/-- Branch-free description of one call, used to case on the decision. -/
theorem checkAndRecord_eq (o : InMemoryRateLimitGuardOptions) (st : RLState)
    (key : String) (now : Int) :
    checkAndRecord o st key now =
      if o.maxRequests ≤ ((validOf o.windowMs now (getLog key st)).length : Int) then
        (Decision.Rejected (ceilDiv ((validOf o.windowMs now (getLog key st)).headD 0
            + o.windowMs - now) 1000), st)
      else
        (Decision.Admitted, cleanupExpiredEntries o.windowMs now
          (setEntry key (validOf o.windowMs now (getLog key st) ++ [now]) st)) := rfl

theorem lookup_cons_self (k : String) (v : List Int) (st : RLState) :
    List.lookup k ((k, v) :: st) = some v := by
  simp [List.lookup]

theorem lookup_cons_ne (k k0 : String) (h : ¬ k = k0) (v : List Int) (st : RLState) :
    List.lookup k ((k0, v) :: st) = List.lookup k st := by
  have hb : (k == k0) = false := by simpa using h
  simp [List.lookup, hb]

theorem lookup_setEntry_self (key : String) (v : List Int) (st : RLState) :
    (setEntry key v st).lookup key = some v := by
  induction st with
  | nil => exact lookup_cons_self key v []
  | cons e rest ih =>
    obtain ⟨k0, w⟩ := e
    by_cases h : k0 = key
    · subst h
      rw [setEntry, if_pos rfl]
      exact lookup_cons_self k0 v rest
    · rw [setEntry, if_neg h, lookup_cons_ne key k0 (fun he => h he.symm), ih]

theorem lookup_setEntry_ne (key k : String) (h : ¬ k = key) (v : List Int) (st : RLState) :
    (setEntry key v st).lookup k = st.lookup k := by
  induction st with
  | nil =>
    rw [setEntry, lookup_cons_ne k key h]
  | cons e rest ih =>
    obtain ⟨k0, w⟩ := e
    by_cases h0 : k0 = key
    · subst h0
      rw [setEntry, if_pos rfl, lookup_cons_ne k k0 h, lookup_cons_ne k k0 h]
    · by_cases h1 : k = k0
      · subst h1
        rw [setEntry, if_neg h0, lookup_cons_self, lookup_cons_self]
      · rw [setEntry, if_neg h0, lookup_cons_ne k k0 h1, lookup_cons_ne k k0 h1, ih]

theorem getLog_setEntry_self (key : String) (v : List Int) (st : RLState) :
    getLog key (setEntry key v st) = v := by
  rw [getLog, lookup_setEntry_self]
  rfl

theorem getLog_setEntry_ne (key k : String) (h : ¬ k = key) (v : List Int) (st : RLState) :
    getLog k (setEntry key v st) = getLog k st := by
  rw [getLog, lookup_setEntry_ne key k h, getLog]

theorem mem_keysOf_setEntry (key x : String) (v : List Int) (st : RLState) :
    x ∈ keysOf (setEntry key v st) ↔ x = key ∨ x ∈ keysOf st := by
  induction st with
  | nil => simp [setEntry, keysOf]
  | cons e rest ih =>
    obtain ⟨k0, w⟩ := e
    by_cases h : k0 = key
    · subst h
      rw [setEntry, if_pos rfl]
      simp only [keysOf, List.map_cons, List.mem_cons]
      tauto
    · simp only [setEntry, if_neg h, keysOf, List.map_cons, List.mem_cons] at ih ⊢
      tauto

theorem nodup_keysOf_setEntry (key : String) (v : List Int) (st : RLState)
    (hnd : (keysOf st).Nodup) : (keysOf (setEntry key v st)).Nodup := by
  induction st with
  | nil => simp [setEntry, keysOf]
  | cons e rest ih =>
    obtain ⟨k0, w⟩ := e
    rw [keysOf, List.map_cons, List.nodup_cons] at hnd
    by_cases h : k0 = key
    · subst h
      rw [setEntry, if_pos rfl, keysOf, List.map_cons, List.nodup_cons]
      exact hnd
    · rw [setEntry, if_neg h, keysOf, List.map_cons, List.nodup_cons]
      refine ⟨fun hmem => ?_, ih hnd.2⟩
      rcases (mem_keysOf_setEntry key k0 v rest).mp hmem with h1 | h1
      · exact h h1
      · exact hnd.1 h1

theorem cleanup_cons (ws now : Int) (e : String × List Int) (rest : RLState) :
    cleanupExpiredEntries ws now (e :: rest) =
      if (validOf ws now e.2).isEmpty then cleanupExpiredEntries ws now rest
      else (e.1, validOf ws now e.2) :: cleanupExpiredEntries ws now rest := by
  by_cases he : (validOf ws now e.2).isEmpty
  · rw [if_pos he]
    simp only [cleanupExpiredEntries, List.filterMap_cons, he, if_pos]
  · rw [if_neg he]
    simp only [cleanupExpiredEntries, List.filterMap_cons, he, Bool.false_eq_true, if_neg,
      not_false_iff]

theorem keysOf_cleanup_sublist (ws now : Int) (st : RLState) :
    (keysOf (cleanupExpiredEntries ws now st)).Sublist (keysOf st) := by
  induction st with
  | nil => simp [cleanupExpiredEntries, keysOf]
  | cons e rest ih =>
    rw [cleanup_cons]
    by_cases he : (validOf ws now e.2).isEmpty
    · rw [if_pos he]
      exact ih.trans (List.sublist_cons_self _ _)
    · rw [if_neg he, keysOf, List.map_cons, keysOf, List.map_cons]
      exact ih.cons₂ _

theorem nodup_keysOf_cleanup (ws now : Int) (st : RLState)
    (hnd : (keysOf st).Nodup) : (keysOf (cleanupExpiredEntries ws now st)).Nodup :=
  (keysOf_cleanup_sublist ws now st).nodup hnd

theorem lookup_eq_none_of_not_mem_keysOf (k : String) (st : RLState)
    (h : k ∉ keysOf st) : st.lookup k = none := by
  induction st with
  | nil => rfl
  | cons e rest ih =>
    obtain ⟨k0, w⟩ := e
    rw [keysOf, List.map_cons, List.mem_cons] at h
    push_neg at h
    rw [lookup_cons_ne k k0 h.1]
    exact ih h.2

theorem getLog_cleanup (ws now : Int) (k : String) (st : RLState)
    (hnd : (keysOf st).Nodup) :
    getLog k (cleanupExpiredEntries ws now st) = validOf ws now (getLog k st) := by
  induction st with
  | nil => rfl
  | cons e rest ih =>
    obtain ⟨k0, l⟩ := e
    rw [keysOf, List.map_cons, List.nodup_cons] at hnd
    rw [cleanup_cons]
    by_cases hk : k = k0
    · subst hk
      have hgl : getLog k ((k, l) :: rest) = l := by
        rw [getLog, lookup_cons_self]
        rfl
      rw [hgl]
      by_cases he : (validOf ws now l).isEmpty
      · rw [if_pos he]
        have h1 : k ∉ keysOf (cleanupExpiredEntries ws now rest) := fun hmem =>
          hnd.1 ((keysOf_cleanup_sublist ws now rest).subset hmem)
        rw [getLog, lookup_eq_none_of_not_mem_keysOf k _ h1]
        rw [List.isEmpty_iff] at he
        rw [he]
        rfl
      · rw [if_neg he, getLog, lookup_cons_self]
        rfl
    · have hgl : getLog k ((k0, l) :: rest) = getLog k rest := by
        rw [getLog, lookup_cons_ne k k0 hk, getLog]
      rw [hgl]
      by_cases he : (validOf ws now l).isEmpty
      · rw [if_pos he]
        exact ih hnd.2
      · rw [if_neg he, getLog, lookup_cons_ne k k0 hk, ← getLog]
        exact ih hnd.2


theorem mem_validOf (ws now x : Int) (l : List Int) :
    x ∈ validOf ws now l ↔ x ∈ l ∧ now - ws < x := by
  simp [validOf, List.mem_filter]

theorem validOf_validOf (ws t u : Int) (h : t ≤ u) (l : List Int) :
    validOf ws u (validOf ws t l) = validOf ws u l := by
  simp only [validOf]
  rw [List.filter_filter]
  apply List.filter_congr
  intro x hx
  by_cases hu : u - ws < x
  · have ht : t - ws < x := by omega
    simp [hu, ht]
  · simp [hu]

theorem validOf_idem (ws now : Int) (l : List Int) :
    validOf ws now (validOf ws now l) = validOf ws now l :=
  validOf_validOf ws now now le_rfl l

theorem validOf_append_now (ws now : Int) (hws : 0 < ws) (l : List Int) :
    validOf ws now (l ++ [now]) = validOf ws now l ++ [now] := by
  simp only [validOf, List.filter_append]
  have hlt : now - ws < now := by omega
  simp [List.filter_cons, hlt]

theorem validOf_sorted (ws now : Int) (l : List Int) (h : List.Sorted (· ≤ ·) l) :
    List.Sorted (· ≤ ·) (validOf ws now l) :=
  h.filter _

theorem mem_cleanup (ws now : Int) (e : String × List Int) (st : RLState)
    (h : e ∈ cleanupExpiredEntries ws now st) :
    e.2 ≠ [] ∧ ∀ x ∈ e.2, now - ws < x := by
  rw [cleanupExpiredEntries] at h
  rcases List.mem_filterMap.mp h with ⟨a, ha, hfa⟩
  dsimp only at hfa
  by_cases he : (validOf ws now a.2).isEmpty
  · rw [if_pos he] at hfa
    cases hfa
  · rw [if_neg he] at hfa
    obtain rfl := Option.some.inj hfa
    constructor
    · simpa [List.isEmpty_iff] using he
    · intro x hx
      exact ((mem_validOf ws now x a.2).mp hx).2

theorem checkAndRecord_rejected_state (o : InMemoryRateLimitGuardOptions) (st : RLState)
    (key : String) (now r : Int)
    (h : (checkAndRecord o st key now).1 = Decision.Rejected r) :
    (checkAndRecord o st key now).2 = st := by
  rw [checkAndRecord_eq] at h ⊢
  by_cases hc : o.maxRequests ≤ ((validOf o.windowMs now (getLog key st)).length : Int)
  · rw [if_pos hc]
  · rw [if_neg hc] at h
    simp at h

theorem nodup_keysOf_step (o : InMemoryRateLimitGuardOptions) (st : RLState)
    (key : String) (now : Int) (hnd : (keysOf st).Nodup) :
    (keysOf (checkAndRecord o st key now).2).Nodup := by
  rw [checkAndRecord_eq]
  by_cases hc : o.maxRequests ≤ ((validOf o.windowMs now (getLog key st)).length : Int)
  · rw [if_pos hc]
    exact hnd
  · rw [if_neg hc]
    exact nodup_keysOf_cleanup _ _ _ (nodup_keysOf_setEntry _ _ _ hnd)

theorem getLog_step_admitted_self (o : InMemoryRateLimitGuardOptions) (st : RLState)
    (key : String) (now : Int) (hnd : (keysOf st).Nodup) (hws : 0 < o.windowMs)
    (hadm : (checkAndRecord o st key now).1 = Decision.Admitted) :
    getLog key (checkAndRecord o st key now).2 =
      validOf o.windowMs now (getLog key st) ++ [now] := by
  rw [checkAndRecord_eq] at hadm ⊢
  by_cases hc : o.maxRequests ≤ ((validOf o.windowMs now (getLog key st)).length : Int)
  · rw [if_pos hc] at hadm
    simp at hadm
  · rw [if_neg hc]
    rw [getLog_cleanup _ _ _ _ (nodup_keysOf_setEntry _ _ _ hnd), getLog_setEntry_self,
      validOf_append_now _ _ hws, validOf_idem]

theorem getLog_step_admitted_ne (o : InMemoryRateLimitGuardOptions) (st : RLState)
    (key : String) (now : Int) (k : String) (hk : ¬ k = key) (hnd : (keysOf st).Nodup)
    (hadm : (checkAndRecord o st key now).1 = Decision.Admitted) :
    getLog k (checkAndRecord o st key now).2 = validOf o.windowMs now (getLog k st) := by
  rw [checkAndRecord_eq] at hadm ⊢
  by_cases hc : o.maxRequests ≤ ((validOf o.windowMs now (getLog key st)).length : Int)
  · rw [if_pos hc] at hadm
    simp at hadm
  · rw [if_neg hc]
    rw [getLog_cleanup _ _ _ _ (nodup_keysOf_setEntry _ _ _ hnd), getLog_setEntry_ne key k hk]

theorem validOf_getLog_step_ne (o : InMemoryRateLimitGuardOptions) (st : RLState)
    (key : String) (now : Int) (k : String) (hk : ¬ k = key) (hnd : (keysOf st).Nodup) :
    validOf o.windowMs now (getLog k (checkAndRecord o st key now).2) =
      validOf o.windowMs now (getLog k st) := by
  rw [checkAndRecord_eq]
  by_cases hc : o.maxRequests ≤ ((validOf o.windowMs now (getLog key st)).length : Int)
  · rw [if_pos hc]
  · rw [if_neg hc]
    rw [getLog_cleanup _ _ _ _ (nodup_keysOf_setEntry _ _ _ hnd), getLog_setEntry_ne key k hk,
      validOf_idem]

/-- Claim C7: whenever a call is rejected, the computed `retryAfterSeconds` is
a strictly positive integer, given positive `windowMs` and `maxRequests`: the
oldest valid timestamp is strictly inside the window, so the ceiling rounds
the positive remaining time up to at least one whole second. -/
theorem c7_rejected_retryAfter_positive (o : InMemoryRateLimitGuardOptions)
    (st : RLState) (key : String) (now r : Int)
    (hws : 0 < o.windowMs) (hmax : 0 < o.maxRequests)
    (h : (checkAndRecord o st key now).1 = Decision.Rejected r) :
    1 ≤ r := by
  rw [checkAndRecord_eq] at h
  by_cases hc : o.maxRequests ≤ ((validOf o.windowMs now (getLog key st)).length : Int)
  · rw [if_pos hc] at h
    have hr : ceilDiv ((validOf o.windowMs now (getLog key st)).headD 0
        + o.windowMs - now) 1000 = r := by
      simpa using h
    have hpos : 0 < (validOf o.windowMs now (getLog key st)).headD 0 + o.windowMs - now := by
      rcases hv : validOf o.windowMs now (getLog key st) with _ | ⟨a, tl⟩
      · rw [hv] at hc
        simp at hc
        omega
      · have ha : a ∈ validOf o.windowMs now (getLog key st) := by
          rw [hv]
          exact List.mem_cons_self a tl
        have hwin := ((mem_validOf _ _ _ _).mp ha).2
        simp only [List.headD_cons]
        omega
    rw [← hr, ceilDiv]
    omega
  · rw [if_neg hc] at h
    simp at h

/-- Claim C8: when a call is rejected, `now` is not recorded and the whole
state mapping is exactly as before the call: the exception is thrown before
any write to the map, so not even the cleanup pass runs. -/
theorem c8_rejected_state_unchanged (o : InMemoryRateLimitGuardOptions)
    (st : RLState) (key : String) (now r : Int)
    (h : (checkAndRecord o st key now).1 = Decision.Rejected r) :
    (checkAndRecord o st key now).2 = st :=
  checkAndRecord_rejected_state o st key now r h

theorem c8_witness :
    (checkAndRecord ⟨60000, 1⟩ [("A", [0])] "A" 10).1 = Decision.Rejected 60 ∧
    (checkAndRecord ⟨60000, 1⟩ [("A", [0])] "A" 10).2 = [("A", [0])] :=
  ⟨by decide, c8_rejected_state_unchanged ⟨60000, 1⟩ [("A", [0])] "A" 10 60 (by decide)⟩

theorem c7_witness :
    (0 : Int) < 60000 ∧ (0 : Int) < 1 ∧
    (checkAndRecord ⟨60000, 1⟩ [("A", [0])] "A" 10).1 = Decision.Rejected 60 ∧
    1 ≤ (60 : Int) :=
  ⟨by norm_num, by norm_num, by decide,
    c7_rejected_retryAfter_positive ⟨60000, 1⟩ [("A", [0])] "A" 10 60
      (by norm_num) (by norm_num) (by decide)⟩

/-- Claim C9: construction fails with the configuration error exactly when
`windowMs ≤ 0` or `maxRequests ≤ 0` (every combination of one or both
invalid), and on valid input it succeeds with the given options and an empty
state mapping. -/
theorem c9_constructor_validation (options : InMemoryRateLimitGuardOptions) :
    (mkInMemoryRateLimitGuard options =
        Except.error "windowMs and maxRequests must be positive" ↔
      options.windowMs ≤ 0 ∨ options.maxRequests ≤ 0) ∧
    (0 < options.windowMs → 0 < options.maxRequests →
      mkInMemoryRateLimitGuard options =
        Except.ok { options := options, requestTimestamps := [] }) := by
  constructor
  · constructor
    · intro h
      by_contra hc
      rw [mkInMemoryRateLimitGuard, if_neg hc] at h
      cases h
    · intro h
      rw [mkInMemoryRateLimitGuard, if_pos h]
  · intro h1 h2
    rw [mkInMemoryRateLimitGuard, if_neg (by omega)]

theorem c9_witness :
    ((0 : Int) < 60000 ∧ (0 : Int) < 2) ∧
    mkInMemoryRateLimitGuard ⟨60000, 2⟩ =
      Except.ok { options := ⟨60000, 2⟩, requestTimestamps := [] } :=
  ⟨⟨by norm_num, by norm_num⟩,
    (c9_constructor_validation ⟨60000, 2⟩).2 (by norm_num) (by norm_num)⟩

theorem extractIp_ok (request : RequestInput)
    (h : request.xForwardedFor ≠ HeaderValue.arr []) :
    ∃ ip, extractIp request = Except.ok ip := by
  rcases request with ⟨oip, xff⟩
  cases xff with
  | missing =>
    rcases oip with _ | s
    · exact ⟨"unknown", by simp [extractIp, HeaderValue.truthy]⟩
    · by_cases hs : s = ""
      · exact ⟨"unknown", by simp [extractIp, HeaderValue.truthy, hs]⟩
      · exact ⟨s, by simp [extractIp, HeaderValue.truthy, hs]⟩
  | str s =>
    by_cases hs : s = ""
    · subst hs
      rcases oip with _ | t
      · exact ⟨"unknown", by simp [extractIp, HeaderValue.truthy]⟩
      · by_cases ht : t = ""
        · exact ⟨"unknown", by simp [extractIp, HeaderValue.truthy, ht]⟩
        · exact ⟨t, by simp [extractIp, HeaderValue.truthy, ht]⟩
    · exact ⟨((s.splitOn ",").headD "").trim, by simp [extractIp, HeaderValue.truthy, hs]⟩
  | arr l =>
    rcases l with _ | ⟨ips, rest⟩
    · exact absurd rfl h
    · exact ⟨((ips.splitOn ",").headD "").trim, by simp [extractIp, HeaderValue.truthy]⟩

/-- Claim C4 as amended: for every request input whose `x-forwarded-for`
header, when it is a string-array, is non-empty (any string shape, absent
header, and present or absent `ip` all allowed), the decision operation
terminates normally with a decision and a new state, signalling no fault
other than the rate-limit rejection outcome. -/
theorem c4_amended_no_fault (o : InMemoryRateLimitGuardOptions) (st : RLState)
    (request : RequestInput) (now : Int)
    (h : request.xForwardedFor ≠ HeaderValue.arr []) :
    ∃ d s, canActivateModel o st request now = Except.ok (d, s) := by
  obtain ⟨ip, hip⟩ := extractIp_ok request h
  refine ⟨(checkAndRecord o st ip now).1, (checkAndRecord o st ip now).2, ?_⟩
  simp only [canActivateModel, hip]

/-- Claim C4, counterexample: a request whose `x-forwarded-for` header is an
empty string-array makes the decision operation fault with a `TypeError` (the
array is truthy, `xForwardedFor[0]` is `undefined`, and `.split` is invoked on
it), which is a fault other than the rate-limit rejection. -/
theorem c4_counterexample :
    canActivateModel ⟨60000, 2⟩ []
        { ip := none, xForwardedFor := HeaderValue.arr [] } 0 =
      Except.error "TypeError: Cannot read properties of undefined" := rfl

theorem c4_witness :
    ({ ip := some "9.9.9.9", xForwardedFor := HeaderValue.missing
        : RequestInput }.xForwardedFor ≠ HeaderValue.arr []) ∧
    ∃ d s, canActivateModel ⟨60000, 2⟩ []
        { ip := some "9.9.9.9", xForwardedFor := HeaderValue.missing } 0 =
      Except.ok (d, s) :=
  ⟨by decide,
    c4_amended_no_fault ⟨60000, 2⟩ []
      { ip := some "9.9.9.9", xForwardedFor := HeaderValue.missing } 0 (by decide)⟩

/-- Claim C3, counterexample: with `windowMs = 60000, maxRequests = 1`, admit
key B at `t = 0` and key A at `t = 50000`, then call key A at `t = 70000`.
That call is rejected, and because the exception is thrown before
`cleanupExpiredEntries` runs, key B survives with its stale timestamp `0` even
though `0` is outside the window of that call (third conjunct) — the claimed
branch-independent pruning does not happen on the rejected branch. -/
theorem c3_counterexample :
    (runCalls ⟨60000, 1⟩ [] [("B", 0), ("A", 50000), ("A", 70000)]).1 =
      [Decision.Admitted, Decision.Admitted, Decision.Rejected 40] ∧
    (runCalls ⟨60000, 1⟩ [] [("B", 0), ("A", 50000), ("A", 70000)]).2 =
      [("B", [0]), ("A", [50000])] ∧
    ¬ (70000 - 60000 < (0 : Int)) :=
  ⟨by decide, by decide, by decide⟩

/-- Claim C3 as amended: on every call that returns `Admitted`, every key in
the state mapping has its log pruned to timestamps strictly greater than
`now - windowMs` (the current key additionally gains `now` at the tail), and
every key whose pruned log is empty is removed, so no empty log remains.  A
rejected call leaves the mapping unchanged: the cleanup pass is not reached. -/
theorem c3_amended_admitted_prunes_all (o : InMemoryRateLimitGuardOptions)
    (st : RLState) (key : String) (now : Int)
    (hws : 0 < o.windowMs) (hnd : (keysOf st).Nodup)
    (hadm : (checkAndRecord o st key now).1 = Decision.Admitted) :
    (∀ e ∈ (checkAndRecord o st key now).2, e.2 ≠ [] ∧ ∀ x ∈ e.2, now - o.windowMs < x) ∧
    getLog key (checkAndRecord o st key now).2 =
      validOf o.windowMs now (getLog key st) ++ [now] ∧
    ∀ k, ¬ k = key →
      getLog k (checkAndRecord o st key now).2 = validOf o.windowMs now (getLog k st) := by
  refine ⟨?_, getLog_step_admitted_self o st key now hnd hws hadm,
    fun k hk => getLog_step_admitted_ne o st key now k hk hnd hadm⟩
  have hstate : (checkAndRecord o st key now).2 =
      cleanupExpiredEntries o.windowMs now
        (setEntry key (validOf o.windowMs now (getLog key st) ++ [now]) st) := by
    rw [checkAndRecord_eq] at hadm ⊢
    by_cases hc : o.maxRequests ≤ ((validOf o.windowMs now (getLog key st)).length : Int)
    · rw [if_pos hc] at hadm
      simp at hadm
    · rw [if_neg hc]
  rw [hstate]
  intro e he
  exact mem_cleanup _ _ _ _ he

theorem c3_amended_witness :
    (0 : Int) < 60000 ∧ (keysOf [("B", [0])]).Nodup ∧
    (checkAndRecord ⟨60000, 2⟩ [("B", [0])] "A" 70000).1 = Decision.Admitted ∧
    ((∀ e ∈ (checkAndRecord ⟨60000, 2⟩ [("B", [0])] "A" 70000).2,
        e.2 ≠ [] ∧ ∀ x ∈ e.2, 70000 - (60000 : Int) < x) ∧
      getLog "A" (checkAndRecord ⟨60000, 2⟩ [("B", [0])] "A" 70000).2 =
        validOf 60000 70000 (getLog "A" [("B", [0])]) ++ [70000] ∧
      ∀ k, ¬ k = "A" →
        getLog k (checkAndRecord ⟨60000, 2⟩ [("B", [0])] "A" 70000).2 =
          validOf 60000 70000 (getLog k [("B", [0])])) :=
  ⟨by norm_num, by decide, by decide,
    c3_amended_admitted_prunes_all ⟨60000, 2⟩ [("B", [0])] "A" 70000
      (by norm_num) (by decide) (by decide)⟩

theorem getLog_nil (k : String) : getLog k [] = [] := rfl

theorem runCalls_nil (o : InMemoryRateLimitGuardOptions) (st : RLState) :
    runCalls o st [] = ([], st) := rfl

theorem runCalls_cons (o : InMemoryRateLimitGuardOptions) (st : RLState)
    (c : String × Int) (cs : List (String × Int)) :
    runCalls o st (c :: cs) =
      ((checkAndRecord o st c.1 c.2).1 :: (runCalls o (checkAndRecord o st c.1 c.2).2 cs).1,
       (runCalls o (checkAndRecord o st c.1 c.2).2 cs).2) := rfl

theorem lastNow_nil (t : Int) : lastNow t [] = t := rfl

theorem lastNow_cons (t : Int) (c : String × Int) (cs : List (String × Int)) :
    lastNow t (c :: cs) = lastNow c.2 cs := by
  rw [lastNow, List.map_cons, List.getLastD_cons, lastNow]

theorem timeOrdered_le (t : Int) (calls : List (String × Int))
    (hto : timeOrdered t calls) : ∀ c ∈ calls, t ≤ c.2 := by
  induction calls generalizing t with
  | nil =>
    intro c hc
    cases hc
  | cons c0 cs ih =>
    intro c hc
    obtain ⟨h1, h2⟩ := hto
    rcases List.mem_cons.mp hc with rfl | hmem
    · exact h1
    · exact le_trans h1 (ih c0.2 h2 c hmem)

theorem timeOrdered_take (t : Int) (calls : List (String × Int))
    (hto : timeOrdered t calls) : ∀ i : Nat, timeOrdered t (calls.take i) := by
  induction calls generalizing t with
  | nil =>
    intro i
    rw [List.take_nil]
    exact trivial
  | cons c cs ih =>
    intro i
    cases i with
    | zero => exact trivial
    | succ n =>
      obtain ⟨h1, h2⟩ := hto
      exact ⟨h1, ih c.2 h2 n⟩

theorem stateInv_empty (t : Int) : StateInv t [] := by
  refine ⟨by simp [keysOf], fun k => ?_, fun k x hx => ?_⟩
  · rw [getLog_nil]
    exact List.sorted_nil
  · rw [getLog_nil] at hx
    cases hx

theorem stateInv_mono (t u : Int) (h : t ≤ u) (st : RLState) (hinv : StateInv t st) :
    StateInv u st :=
  ⟨hinv.nodup, hinv.sorted, fun k x hx => le_trans (hinv.ubound k x hx) h⟩

theorem stateInv_step (o : InMemoryRateLimitGuardOptions) (st : RLState)
    (key : String) (now t : Int) (hws : 0 < o.windowMs)
    (hinv : StateInv t st) (hle : t ≤ now) :
    StateInv now (checkAndRecord o st key now).2 := by
  rcases hd : (checkAndRecord o st key now).1 with _ | r
  case Rejected =>
    rw [checkAndRecord_rejected_state o st key now r hd]
    exact stateInv_mono t now hle st hinv
  case Admitted =>
    refine ⟨nodup_keysOf_step o st key now hinv.nodup, fun k => ?_, fun k x hx => ?_⟩
    · by_cases hk : k = key
      · subst hk
        rw [getLog_step_admitted_self o st k now hinv.nodup hws hd]
        refine List.pairwise_append.mpr
          ⟨validOf_sorted _ _ _ (hinv.sorted k), List.pairwise_singleton _ _, ?_⟩
        intro a ha b hb
        rw [List.mem_singleton] at hb
        subst hb
        exact le_trans (hinv.ubound k a ((mem_validOf _ _ _ _).mp ha).1) hle
      · rw [getLog_step_admitted_ne o st key now k hk hinv.nodup hd]
        exact validOf_sorted _ _ _ (hinv.sorted k)
    · by_cases hk : k = key
      · subst hk
        rw [getLog_step_admitted_self o st k now hinv.nodup hws hd] at hx
        rcases List.mem_append.mp hx with h1 | h1
        · exact le_trans (hinv.ubound k x ((mem_validOf _ _ _ _).mp h1).1) hle
        · rw [List.mem_singleton] at h1
          subst h1
          exact le_rfl
      · rw [getLog_step_admitted_ne o st key now k hk hinv.nodup hd] at hx
        exact le_trans (hinv.ubound k x ((mem_validOf _ _ _ _).mp hx).1) hle

theorem stateInv_runCalls (o : InMemoryRateLimitGuardOptions) (hws : 0 < o.windowMs) :
    ∀ (calls : List (String × Int)) (st : RLState) (t : Int),
      StateInv t st → timeOrdered t calls →
      StateInv (lastNow t calls) (runCalls o st calls).2 ∧ t ≤ lastNow t calls := by
  intro calls
  induction calls with
  | nil =>
    intro st t hinv _
    exact ⟨hinv, le_rfl⟩
  | cons c cs ih =>
    intro st t hinv hto
    obtain ⟨h1, h2⟩ := hto
    rw [lastNow_cons]
    have hstep := stateInv_step o st c.1 c.2 t hws hinv h1
    have hrec := ih (checkAndRecord o st c.1 c.2).2 c.2 hstep h2
    exact ⟨hrec.1, le_trans h1 hrec.2⟩

theorem headD_le_of_sorted (l : List Int) (hs : List.Sorted (· ≤ ·) l)
    (x : Int) (hx : x ∈ l) : l.headD 0 ≤ x := by
  cases l with
  | nil => cases hx
  | cons a tl =>
    rw [List.headD_cons]
    rcases List.mem_cons.mp hx with rfl | hmem
    · exact le_rfl
    · exact (List.sorted_cons.mp hs).1 x hmem

/-- Claim C10: for every run with non-decreasing clock values starting from the
fresh guard, after every call (i.e. after every prefix of the call sequence)
every key's timestamp log is a non-decreasing sequence: admissions append only
at the tail and pruning preserves order. -/
theorem c10_logs_sorted (o : InMemoryRateLimitGuardOptions)
    (hws : 0 < o.windowMs) (t0 : Int) (calls : List (String × Int))
    (hto : timeOrdered t0 calls) (i : Nat) (k : String) :
    List.Sorted (· ≤ ·) (getLog k (runCalls o [] (calls.take i)).2) :=
  ((stateInv_runCalls o hws (calls.take i) [] t0 (stateInv_empty t0)
    (timeOrdered_take t0 calls hto i)).1).sorted k

theorem c10_witness :
    (0 : Int) < 60000 ∧ timeOrdered 0 [("A", 0), ("B", 3), ("A", 10)] ∧
    List.Sorted (· ≤ ·)
      (getLog "A" (runCalls ⟨60000, 2⟩ [] ([("A", 0), ("B", 3), ("A", 10)].take 3)).2) :=
  ⟨by norm_num, by decide,
    c10_logs_sorted ⟨60000, 2⟩ (by norm_num) 0 [("A", 0), ("B", 3), ("A", 10)]
      (by decide) 3 "A"⟩

/-- Claim C2: when a call made after a time-ordered history is rejected, the
retry hint equals `ceilDiv (oldest + windowMs - now) 1000` where `oldest` is
the first element of the pruned log, and that first element really is the
oldest: it is a lower bound of every timestamp of the key's log strictly
greater than `now - windowMs`. -/
theorem c2_retry_hint_from_oldest (o : InMemoryRateLimitGuardOptions)
    (hws : 0 < o.windowMs) (hmax : 0 < o.maxRequests)
    (t0 : Int) (calls : List (String × Int)) (hto : timeOrdered t0 calls)
    (k : String) (now r : Int) (hnow : lastNow t0 calls ≤ now)
    (hrej : (checkAndRecord o (runCalls o [] calls).2 k now).1 = Decision.Rejected r) :
    validOf o.windowMs now (getLog k (runCalls o [] calls).2) ≠ [] ∧
    (∀ x ∈ validOf o.windowMs now (getLog k (runCalls o [] calls).2),
      (validOf o.windowMs now (getLog k (runCalls o [] calls).2)).headD 0 ≤ x) ∧
    r = ceilDiv ((validOf o.windowMs now (getLog k (runCalls o [] calls).2)).headD 0
      + o.windowMs - now) 1000 := by
  have hinv := (stateInv_runCalls o hws calls [] t0 (stateInv_empty t0) hto).1
  have hsorted : List.Sorted (· ≤ ·)
      (validOf o.windowMs now (getLog k (runCalls o [] calls).2)) :=
    validOf_sorted _ _ _ (hinv.sorted k)
  rw [checkAndRecord_eq] at hrej
  by_cases hc : o.maxRequests ≤
      ((validOf o.windowMs now (getLog k (runCalls o [] calls).2)).length : Int)
  · rw [if_pos hc] at hrej
    have hr : ceilDiv ((validOf o.windowMs now (getLog k (runCalls o [] calls).2)).headD 0
        + o.windowMs - now) 1000 = r := by
      simpa using hrej
    refine ⟨?_, fun x hx => headD_le_of_sorted _ hsorted x hx, hr.symm⟩
    intro hnil
    rw [hnil] at hc
    simp at hc
    omega
  · rw [if_neg hc] at hrej
    simp at hrej

theorem c2_witness :
    timeOrdered 0 [("A", 0), ("A", 10)] ∧
    (checkAndRecord ⟨60000, 2⟩ (runCalls ⟨60000, 2⟩ [] [("A", 0), ("A", 10)]).2
        "A" 20).1 = Decision.Rejected 60 ∧
    (validOf 60000 20 (getLog "A" (runCalls ⟨60000, 2⟩ [] [("A", 0), ("A", 10)]).2) ≠ [] ∧
      (∀ x ∈ validOf 60000 20 (getLog "A" (runCalls ⟨60000, 2⟩ [] [("A", 0), ("A", 10)]).2),
        (validOf 60000 20
          (getLog "A" (runCalls ⟨60000, 2⟩ [] [("A", 0), ("A", 10)]).2)).headD 0 ≤ x) ∧
      (60 : Int) = ceilDiv ((validOf 60000 20
          (getLog "A" (runCalls ⟨60000, 2⟩ [] [("A", 0), ("A", 10)]).2)).headD 0
        + 60000 - 20) 1000) :=
  ⟨by decide, by decide,
    c2_retry_hint_from_oldest ⟨60000, 2⟩ (by norm_num) (by norm_num) 0
      [("A", 0), ("A", 10)] (by decide) "A" 20 60 (by decide) (by decide)⟩

theorem countFrom_validOf (ws now base : Int) (l : List Int) (hwin : now - ws < base) :
    countFrom base (validOf ws now l) = countFrom base l := by
  rw [countFrom, validOf, List.countP_filter, countFrom]
  apply List.countP_congr
  intro x hx
  constructor
  · intro h
    simp at h
    simp [h.1]
  · intro h
    simp at h
    simp [h]
    omega

theorem countFrom_le_length (base : Int) (l : List Int) : countFrom base l ≤ l.length :=
  List.countP_le_length _

theorem countFrom_append_now (base now : Int) (l : List Int) (h : base ≤ now) :
    countFrom base (l ++ [now]) = countFrom base l + 1 := by
  rw [countFrom, List.countP_append, countFrom]
  simp [List.countP_cons, h]

theorem countAdmitted_cons (d : Decision) (ds : List Decision) :
    countAdmitted (d :: ds) = countAdmitted ds + (if d.isAdmitted then 1 else 0) := by
  rw [countAdmitted, List.countP_cons, countAdmitted]

theorem c1_aux (o : InMemoryRateLimitGuardOptions) (k : String) (base : Int)
    (hws : 0 < o.windowMs) :
    ∀ (calls : List (String × Int)) (st : RLState) (a : Nat),
      (∀ c ∈ calls, c.1 = k ∧ base ≤ c.2 ∧ c.2 < base + o.windowMs) →
      (keysOf st).Nodup →
      ((a : Int) ≤ o.maxRequests) →
      a ≤ countFrom base (getLog k st) →
      (((a : Int) + (countAdmitted (runCalls o st calls).1 : Int) ≤ o.maxRequests) ∧
       ∀ i, (hi : i < (runCalls o st calls).1.length) →
         o.maxRequests ≤ (a : Int) + (countAdmitted ((runCalls o st calls).1.take i) : Int) →
         ((runCalls o st calls).1.get ⟨i, hi⟩).isAdmitted = false) := by
  intro calls
  induction calls with
  | nil =>
    intro st a hc hnd ha hcount
    constructor
    · simpa [runCalls_nil, countAdmitted] using ha
    · intro i hi
      rw [runCalls_nil] at hi
      cases hi
  | cons c cs ih =>
    intro st a hc hnd ha hcount
    obtain ⟨hk, hbase, hwin⟩ := hc c (List.mem_cons_self c cs)
    have hcs : ∀ c' ∈ cs, c'.1 = k ∧ base ≤ c'.2 ∧ c'.2 < base + o.windowMs :=
      fun c' hc' => hc c' (List.mem_cons_of_mem c hc')
    have hvc : countFrom base (validOf o.windowMs c.2 (getLog k st)) =
        countFrom base (getLog k st) :=
      countFrom_validOf _ _ _ _ (by omega)
    rw [runCalls_cons, hk]
    rcases hd : (checkAndRecord o st k c.2).1 with _ | r
    case Rejected =>
      have hst : (checkAndRecord o st k c.2).2 = st :=
        checkAndRecord_rejected_state o st k c.2 r hd
      rw [hst]
      obtain ⟨ih1, ih2⟩ := ih st a hcs hnd ha hcount
      constructor
      · rw [countAdmitted_cons]
        simp only [Decision.isAdmitted, if_false, Bool.false_eq_true]
        omega
      · intro i hi hcnt
        cases i with
        | zero =>
          simp [Decision.isAdmitted]
        | succ n =>
          rw [List.take_succ_cons, countAdmitted_cons] at hcnt
          simp only [Decision.isAdmitted, Bool.false_eq_true, if_false] at hcnt
          rw [List.get_cons_succ]
          exact ih2 n (by simpa using Nat.lt_of_succ_lt_succ hi) (by omega)
    case Admitted =>
      have hlen : ¬ o.maxRequests ≤ ((validOf o.windowMs c.2 (getLog k st)).length : Int) := by
        intro hcond
        rw [checkAndRecord_eq, if_pos hcond] at hd
        simp at hd
      have hanew : ((a : Int) + 1 ≤ o.maxRequests) := by
        have h1 := countFrom_le_length base (validOf o.windowMs c.2 (getLog k st))
        omega
      have hnd' : (keysOf (checkAndRecord o st k c.2).2).Nodup :=
        nodup_keysOf_step o st k c.2 hnd
      have hcount' : a + 1 ≤ countFrom base (getLog k (checkAndRecord o st k c.2).2) := by
        rw [getLog_step_admitted_self o st k c.2 hnd hws hd,
          countFrom_append_now base c.2 _ hbase, hvc]
        omega
      obtain ⟨ih1, ih2⟩ := ih (checkAndRecord o st k c.2).2 (a + 1) hcs hnd'
        (by push_cast; omega) hcount'
      constructor
      · rw [countAdmitted_cons]
        simp only [Decision.isAdmitted, if_true]
        push_cast at ih1 ⊢
        omega
      · intro i hi hcnt
        cases i with
        | zero =>
          simp only [List.take_zero, countAdmitted, List.countP_nil, Nat.cast_zero,
            add_zero] at hcnt
          omega
        | succ n =>
          rw [List.take_succ_cons, countAdmitted_cons] at hcnt
          simp only [Decision.isAdmitted, if_true] at hcnt
          rw [List.get_cons_succ]
          refine ih2 n (by simpa using Nat.lt_of_succ_lt_succ hi) ?_
          push_cast at hcnt ⊢
          omega

/-- Claim C1: for every sequence of calls with one key `k` whose clocks are
non-decreasing and all lie inside one window `[base, base + windowMs)`, run
from the fresh guard, at most `maxRequests` of the decisions are `Admitted`,
and every call arriving after `maxRequests` admissions is `Rejected`. -/
theorem c1_at_most_max_admitted (o : InMemoryRateLimitGuardOptions)
    (hws : 0 < o.windowMs) (hmax : 0 < o.maxRequests)
    (k : String) (base : Int) (calls : List (String × Int))
    (hkeys : ∀ c ∈ calls, c.1 = k)
    (hto : timeOrdered base calls)
    (hwin : ∀ c ∈ calls, c.2 < base + o.windowMs) :
    ((countAdmitted (runCalls o [] calls).1 : Int) ≤ o.maxRequests ∧
     ∀ i, (hi : i < (runCalls o [] calls).1.length) →
       o.maxRequests ≤ (countAdmitted ((runCalls o [] calls).1.take i) : Int) →
       ((runCalls o [] calls).1.get ⟨i, hi⟩).isAdmitted = false) := by
  have h := c1_aux o k base hws calls [] 0
    (fun c hc => ⟨hkeys c hc, timeOrdered_le base calls hto c hc, hwin c hc⟩)
    (by simp [keysOf])
    (by simpa using hmax.le)
    (Nat.zero_le _)
  constructor
  · have := h.1
    push_cast at this
    omega
  · intro i hi hcnt
    refine h.2 i hi ?_
    push_cast
    omega

theorem c1_witness :
    timeOrdered 0 [("A", 0), ("A", 10), ("A", 20)] ∧
    ((countAdmitted (runCalls ⟨60000, 2⟩ [] [("A", 0), ("A", 10), ("A", 20)]).1 : Int) ≤ 2 ∧
     ∀ i, (hi : i < (runCalls ⟨60000, 2⟩ [] [("A", 0), ("A", 10), ("A", 20)]).1.length) →
       (2 : Int) ≤
         (countAdmitted ((runCalls ⟨60000, 2⟩ [] [("A", 0), ("A", 10), ("A", 20)]).1.take i) :
           Int) →
       (((runCalls ⟨60000, 2⟩ [] [("A", 0), ("A", 10), ("A", 20)]).1.get
         ⟨i, hi⟩).isAdmitted = false)) :=
  ⟨by decide,
    c1_at_most_max_admitted ⟨60000, 2⟩ (by norm_num) (by norm_num) "A" 0
      [("A", 0), ("A", 10), ("A", 20)] (by decide) (by decide) (by decide)⟩

theorem mem_admittedNows_cons (k : String) (c : String × Int) (cs : List (String × Int))
    (d : Decision) (ds : List Decision) (x : Int)
    (hx : x ∈ admittedNows k cs ds) : x ∈ admittedNows k (c :: cs) (d :: ds) := by
  by_cases h : c.1 = k ∧ d.isAdmitted = true
  · simp only [admittedNows, if_pos h]
    exact List.mem_cons_of_mem _ hx
  · simp only [admittedNows, if_neg h]
    exact hx

theorem admittedNows_sublist (k : String) :
    ∀ (cs : List (String × Int)) (ds : List Decision),
      (admittedNows k cs ds).Sublist (cs.map Prod.snd) := by
  intro cs
  induction cs with
  | nil =>
    intro ds
    cases ds with
    | nil => simp [admittedNows]
    | cons d ds' => simp [admittedNows]
  | cons c cs' ih =>
    intro ds
    cases ds with
    | nil => simp [admittedNows]
    | cons d ds' =>
      by_cases h : c.1 = k ∧ d.isAdmitted = true
      · simp only [admittedNows, if_pos h, List.map_cons]
        exact (ih ds').cons₂ _
      · simp only [admittedNows, if_neg h, List.map_cons]
        exact (ih ds').cons _

theorem sorted_map_snd (t : Int) (calls : List (String × Int))
    (hto : timeOrdered t calls) : List.Sorted (· ≤ ·) (calls.map Prod.snd) := by
  induction calls generalizing t with
  | nil => exact List.sorted_nil
  | cons c cs ih =>
    obtain ⟨h1, h2⟩ := hto
    rw [List.map_cons]
    refine List.sorted_cons.mpr ⟨?_, ih c.2 h2⟩
    intro b hb
    rcases List.mem_map.mp hb with ⟨c', hc', rfl⟩
    exact timeOrdered_le c.2 cs h2 c' hc'

theorem getLastD_mem_of_ne_nil : ∀ (l : List Int), l ≠ [] → l.getLastD 0 ∈ l := by
  intro l
  induction l with
  | nil =>
    intro h
    exact absurd rfl h
  | cons a tl ih =>
    intro _
    cases tl with
    | nil => simp
    | cons b tl2 =>
      rw [List.getLastD_cons]
      have hg : (b :: tl2).getLastD a = (b :: tl2).getLastD 0 := by
        rw [List.getLastD_cons, List.getLastD_cons]
      rw [hg]
      exact List.mem_cons_of_mem a (ih (List.cons_ne_nil b tl2))

theorem le_getLastD_of_sorted : ∀ (l : List Int), List.Sorted (· ≤ ·) l →
    ∀ x ∈ l, x ≤ l.getLastD 0 := by
  intro l
  induction l with
  | nil =>
    intro _ x hx
    cases hx
  | cons a tl ih =>
    intro hs x hx
    cases tl with
    | nil =>
      rcases List.mem_singleton.mp hx with rfl
      simp
    | cons b tl2 =>
      rw [List.getLastD_cons]
      have hg : (b :: tl2).getLastD a = (b :: tl2).getLastD 0 := by
        rw [List.getLastD_cons, List.getLastD_cons]
      rw [hg]
      rcases List.mem_cons.mp hx with rfl | hmem
      · exact (List.sorted_cons.mp hs).1 _
          (getLastD_mem_of_ne_nil (b :: tl2) (List.cons_ne_nil b tl2))
      · exact ih (List.sorted_cons.mp hs).2 x hmem

theorem getLog_runCalls_subset (o : InMemoryRateLimitGuardOptions) (hws : 0 < o.windowMs)
    (k : String) :
    ∀ (calls : List (String × Int)) (st : RLState), (keysOf st).Nodup →
      ∀ x ∈ getLog k (runCalls o st calls).2,
        x ∈ getLog k st ∨ x ∈ admittedNows k calls (runCalls o st calls).1 := by
  intro calls
  induction calls with
  | nil =>
    intro st _ x hx
    exact Or.inl hx
  | cons c cs ih =>
    intro st hnd x hx
    have hx' : x ∈ getLog k (runCalls o (checkAndRecord o st c.1 c.2).2 cs).2 := hx
    have hnd' := nodup_keysOf_step o st c.1 c.2 hnd
    show x ∈ getLog k st ∨ x ∈ admittedNows k (c :: cs)
      ((checkAndRecord o st c.1 c.2).1 :: (runCalls o (checkAndRecord o st c.1 c.2).2 cs).1)
    rcases ih (checkAndRecord o st c.1 c.2).2 hnd' x hx' with h1 | h1
    · rcases hd : (checkAndRecord o st c.1 c.2).1 with _ | r
      case Rejected =>
        rw [checkAndRecord_rejected_state o st c.1 c.2 r hd] at h1
        exact Or.inl h1
      case Admitted =>
        by_cases hk : k = c.1
        · rw [hk] at h1
          rw [getLog_step_admitted_self o st c.1 c.2 hnd hws hd] at h1
          rcases List.mem_append.mp h1 with h2 | h2
          · rw [← hk] at h2
            exact Or.inl (((mem_validOf _ _ _ _).mp h2).1)
          · rw [List.mem_singleton] at h2
            subst h2
            right
            simp only [admittedNows]
            rw [if_pos (show c.1 = k ∧ Decision.Admitted.isAdmitted = true from
              ⟨hk.symm, rfl⟩)]
            exact List.mem_cons_self _ _
        · rw [getLog_step_admitted_ne o st c.1 c.2 k hk hnd hd] at h1
          exact Or.inl (((mem_validOf _ _ _ _).mp h1).1)
    · exact Or.inr (mem_admittedNows_cons k c cs _ _ x h1)

/-- Claim C6: run any time-ordered history from the fresh guard, and then call
key `k` at a clock `nowNext` no earlier than the history's last clock.  If
`nowNext` exceeds the time of `k`'s last admitted request by strictly more
than `windowMs`, the call is admitted regardless of how many rejections
happened in between: every logged timestamp of `k` is the time of some
admitted call, so the strict filter empties the log. -/
theorem c6_window_reset (o : InMemoryRateLimitGuardOptions)
    (hws : 0 < o.windowMs) (hmax : 0 < o.maxRequests)
    (k : String) (t0 : Int) (calls : List (String × Int)) (hto : timeOrdered t0 calls)
    (nowNext : Int) (hlast : lastNow t0 calls ≤ nowNext)
    (hA : admittedNows k calls (runCalls o [] calls).1 ≠ [])
    (hgap : (admittedNows k calls (runCalls o [] calls).1).getLastD 0
      + o.windowMs < nowNext) :
    (checkAndRecord o (runCalls o [] calls).2 k nowNext).1 = Decision.Admitted := by
  have hsortedA : List.Sorted (· ≤ ·) (admittedNows k calls (runCalls o [] calls).1) :=
    List.Pairwise.sublist (admittedNows_sublist k calls (runCalls o [] calls).1)
      (sorted_map_snd t0 calls hto)
  have hempty : validOf o.windowMs nowNext (getLog k (runCalls o [] calls).2) = [] := by
    by_contra hne
    obtain ⟨x, hx⟩ := List.exists_mem_of_ne_nil _ hne
    have hwin := (mem_validOf _ _ _ _).mp hx
    have hmemA : x ∈ admittedNows k calls (runCalls o [] calls).1 := by
      rcases getLog_runCalls_subset o hws k calls [] (by simp [keysOf]) x hwin.1 with h | h
      · rw [getLog_nil] at h
        cases h
      · exact h
    have hxle := le_getLastD_of_sorted _ hsortedA x hmemA
    omega
  have hcond : ¬ o.maxRequests ≤
      ((validOf o.windowMs nowNext (getLog k (runCalls o [] calls).2)).length : Int) := by
    rw [hempty]
    simp only [List.length_nil, Nat.cast_zero]
    omega
  rw [checkAndRecord_eq, if_neg hcond]

theorem c6_witness :
    timeOrdered 0 [("A", 0), ("A", 10), ("A", 20)] ∧
    admittedNows "A" [("A", 0), ("A", 10), ("A", 20)]
      (runCalls ⟨60000, 2⟩ [] [("A", 0), ("A", 10), ("A", 20)]).1 ≠ [] ∧
    (admittedNows "A" [("A", 0), ("A", 10), ("A", 20)]
      (runCalls ⟨60000, 2⟩ [] [("A", 0), ("A", 10), ("A", 20)]).1).getLastD 0
      + 60000 < 60011 ∧
    (checkAndRecord ⟨60000, 2⟩
      (runCalls ⟨60000, 2⟩ [] [("A", 0), ("A", 10), ("A", 20)]).2
      "A" 60011).1 = Decision.Admitted :=
  ⟨by decide, by decide, by decide,
    c6_window_reset ⟨60000, 2⟩ (by norm_num) (by norm_num) "A" 0
      [("A", 0), ("A", 10), ("A", 20)] (by decide) 60011 (by decide) (by decide) (by decide)⟩

theorem checkAndRecord_first_eq (o : InMemoryRateLimitGuardOptions)
    (s1 s2 : RLState) (k : String) (now : Int)
    (hv : validOf o.windowMs now (getLog k s1) = validOf o.windowMs now (getLog k s2)) :
    (checkAndRecord o s1 k now).1 = (checkAndRecord o s2 k now).1 := by
  rw [checkAndRecord_eq, checkAndRecord_eq, hv]
  by_cases hc : o.maxRequests ≤ ((validOf o.windowMs now (getLog k s2)).length : Int)
  · rw [if_pos hc, if_pos hc]
  · rw [if_neg hc, if_neg hc]

theorem runCalls_length (o : InMemoryRateLimitGuardOptions) :
    ∀ (calls : List (String × Int)) (st : RLState),
      (runCalls o st calls).1.length = calls.length := by
  intro calls
  induction calls with
  | nil =>
    intro st
    rfl
  | cons c cs ih =>
    intro st
    rw [runCalls_cons, List.length_cons, ih, List.length_cons]

theorem projFor_all (k : String) :
    ∀ (cs : List (String × Int)) (ds : List Decision),
      (∀ c ∈ cs, c.1 = k) → ds.length = cs.length → projFor k cs ds = ds := by
  intro cs
  induction cs with
  | nil =>
    intro ds _ hlen
    cases ds with
    | nil => rfl
    | cons d ds' => simp at hlen
  | cons c cs' ih =>
    intro ds h hlen
    cases ds with
    | nil => simp at hlen
    | cons d ds' =>
      simp only [projFor, if_pos (h c (List.mem_cons_self c cs'))]
      rw [ih ds' (fun c' hc' => h c' (List.mem_cons_of_mem c hc')) (by simpa using hlen)]

theorem run_proj_filter (o : InMemoryRateLimitGuardOptions) (hws : 0 < o.windowMs)
    (k : String) :
    ∀ (calls : List (String × Int)) (t : Int) (s1 s2 : RLState),
      timeOrdered t calls →
      (keysOf s1).Nodup → (keysOf s2).Nodup →
      validOf o.windowMs t (getLog k s1) = validOf o.windowMs t (getLog k s2) →
      projFor k calls (runCalls o s1 calls).1 =
        (runCalls o s2 (calls.filter (fun c => c.1 = k))).1 := by
  intro calls
  induction calls with
  | nil =>
    intro t s1 s2 _ _ _ _
    rfl
  | cons c cs ih =>
    intro t s1 s2 hto hnd1 hnd2 hrel
    obtain ⟨htc, hto'⟩ := hto
    have hrelnow : validOf o.windowMs c.2 (getLog k s1) =
        validOf o.windowMs c.2 (getLog k s2) := by
      rw [← validOf_validOf o.windowMs t c.2 htc (getLog k s1),
          ← validOf_validOf o.windowMs t c.2 htc (getLog k s2), hrel]
    by_cases hk : c.1 = k
    · have hfil : (c :: cs).filter (fun c' => decide (c'.1 = k)) =
          c :: cs.filter (fun c' => decide (c'.1 = k)) := by
        rw [List.filter_cons_of_pos]
        simp [hk]
      rw [hfil]
      have hdec : (checkAndRecord o s1 c.1 c.2).1 = (checkAndRecord o s2 c.1 c.2).1 := by
        rw [hk]
        exact checkAndRecord_first_eq o s1 s2 k c.2 hrelnow
      have hrel' : validOf o.windowMs c.2 (getLog k (checkAndRecord o s1 c.1 c.2).2) =
          validOf o.windowMs c.2 (getLog k (checkAndRecord o s2 c.1 c.2).2) := by
        rcases hd : (checkAndRecord o s1 c.1 c.2).1 with _ | r
        case Rejected =>
          have hd2 : (checkAndRecord o s2 c.1 c.2).1 = Decision.Rejected r := by
            rw [← hdec]
            exact hd
          rw [checkAndRecord_rejected_state o s1 c.1 c.2 r hd,
              checkAndRecord_rejected_state o s2 c.1 c.2 r hd2]
          exact hrelnow
        case Admitted =>
          have hd2 : (checkAndRecord o s2 c.1 c.2).1 = Decision.Admitted := by
            rw [← hdec]
            exact hd
          rw [hk] at hd hd2
          rw [hk]
          rw [getLog_step_admitted_self o s1 k c.2 hnd1 hws hd,
              getLog_step_admitted_self o s2 k c.2 hnd2 hws hd2,
              validOf_append_now _ _ hws, validOf_append_now _ _ hws,
              validOf_idem, validOf_idem, hrelnow]
      have hnd1' := nodup_keysOf_step o s1 c.1 c.2 hnd1
      have hnd2' := nodup_keysOf_step o s2 c.1 c.2 hnd2
      show projFor k (c :: cs)
          ((checkAndRecord o s1 c.1 c.2).1 ::
            (runCalls o (checkAndRecord o s1 c.1 c.2).2 cs).1) =
        (checkAndRecord o s2 c.1 c.2).1 ::
          (runCalls o (checkAndRecord o s2 c.1 c.2).2
            (cs.filter (fun c' => decide (c'.1 = k)))).1
      simp only [projFor]
      rw [if_pos hk, hdec,
        ih c.2 (checkAndRecord o s1 c.1 c.2).2 (checkAndRecord o s2 c.1 c.2).2
          hto' hnd1' hnd2' hrel']
    · have hfil : (c :: cs).filter (fun c' => decide (c'.1 = k)) =
          cs.filter (fun c' => decide (c'.1 = k)) := by
        rw [List.filter_cons_of_neg]
        simp [hk]
      rw [hfil]
      have hstep : validOf o.windowMs c.2 (getLog k (checkAndRecord o s1 c.1 c.2).2) =
          validOf o.windowMs c.2 (getLog k s1) :=
        validOf_getLog_step_ne o s1 c.1 c.2 k (fun he => hk he.symm) hnd1
      have hrel' : validOf o.windowMs c.2 (getLog k (checkAndRecord o s1 c.1 c.2).2) =
          validOf o.windowMs c.2 (getLog k s2) := by
        rw [hstep, hrelnow]
      have hnd1' := nodup_keysOf_step o s1 c.1 c.2 hnd1
      show projFor k (c :: cs)
          ((checkAndRecord o s1 c.1 c.2).1 ::
            (runCalls o (checkAndRecord o s1 c.1 c.2).2 cs).1) =
        (runCalls o s2 (cs.filter (fun c' => decide (c'.1 = k)))).1
      simp only [projFor]
      rw [if_neg hk]
      exact ih c.2 (checkAndRecord o s1 c.1 c.2).2 s2 hto' hnd1' hnd2 hrel'

/-- Claim C5: for two distinct keys `k` and `k2` and any time-ordered sequence
of calls whose keys all lie in `{k, k2}`, run from the fresh guard, the
decisions observed for `k` (admissions, rejections, and retry hints) are
identical to the decisions `k` observes when every call for `k2` is removed
from the sequence. -/
theorem c5_per_key_isolation (o : InMemoryRateLimitGuardOptions) (hws : 0 < o.windowMs)
    (k k2 : String) (hne : k ≠ k2)
    (t0 : Int) (calls : List (String × Int))
    (hto : timeOrdered t0 calls)
    (hkeys : ∀ c ∈ calls, c.1 = k ∨ c.1 = k2) :
    projFor k calls (runCalls o [] calls).1 =
      projFor k (calls.filter (fun c => ¬ c.1 = k2))
        (runCalls o [] (calls.filter (fun c => ¬ c.1 = k2))).1 := by
  have hfil : calls.filter (fun c => ¬ c.1 = k2) = calls.filter (fun c => c.1 = k) := by
    apply List.filter_congr
    intro c hc
    apply decide_eq_decide.mpr
    rcases hkeys c hc with h | h
    · rw [h]
      simp [hne]
    · rw [h]
      simp [hne.symm]
  have hmain := run_proj_filter o hws k calls t0 [] [] hto
    (by simp [keysOf]) (by simp [keysOf]) rfl
  rw [hfil, hmain]
  rw [projFor_all k (calls.filter (fun c => decide (c.1 = k)))
    (runCalls o [] (calls.filter (fun c => decide (c.1 = k)))).1
    (fun c hc => of_decide_eq_true (List.mem_filter.mp hc).2)
    (runCalls_length o _ _)]

theorem c5_witness :
    timeOrdered 0 [("A", 0), ("A", 1), ("C", 1), ("A", 2)] ∧
    (∀ c ∈ [("A", 0), ("A", 1), ("C", 1), ("A", 2)], c.1 = "A" ∨ c.1 = "C") ∧
    projFor "A" [("A", 0), ("A", 1), ("C", 1), ("A", 2)]
        (runCalls ⟨60000, 2⟩ [] [("A", 0), ("A", 1), ("C", 1), ("A", 2)]).1 =
      projFor "A" ([("A", 0), ("A", 1), ("C", 1), ("A", 2)].filter (fun c => ¬ c.1 = "C"))
        (runCalls ⟨60000, 2⟩ []
          ([("A", 0), ("A", 1), ("C", 1), ("A", 2)].filter (fun c => ¬ c.1 = "C"))).1 :=
  ⟨by decide, by decide,
    c5_per_key_isolation ⟨60000, 2⟩ (by norm_num) "A" "C" (by decide) 0
      [("A", 0), ("A", 1), ("C", 1), ("A", 2)] (by decide) (by decide)⟩

end InMemoryRateLimit
